import Mathlib

/-!
# Verification of the token-extractor color pipeline

Shallow embedding of the color-extraction / deduplication / naming pipeline
from `src/code.ts` (a Figma design-token extractor plugin), together with
theorems settling the specification claims about it.

Modelling conventions:
* JS `number` values coming from normalized colors are embedded as `ℚ`
  (the source operates on exact arithmetic expressions over the inputs;
  the claims are stated over [0,1]-normalized components).
* `Math.round` is embedded as `⌊x + 1/2⌋` (JS rounds half toward +∞).
* JS template-string number interpolation is embedded by `natToString`,
  a fuel-based decimal printer (kernel-reducible, unlike `Nat.repr`).
* JS objects used as string-keyed records are embedded as insertion-ordered
  association lists (`assocLookup` / `assocUpsert`), matching JS property
  insertion-order and overwrite semantics.
-/

/-- JS `Math.round`: rounds half toward positive infinity. -/
def jsRound (q : ℚ) : ℤ := ⌊q + 1/2⌋

/-- Digits of `n` in base 10, most significant first, computed with explicit
fuel so that the definition is structural (kernel-reducible).  `fuel = n` is
always sufficient. Mirrors JS `Number.prototype.toString()` (base 10) /
`toString(16)` (base 16) via `Nat.digitChar` (lowercase hex letters). -/
def digitsFuel (base : ℕ) : ℕ → ℕ → List Char
  | 0, n => [Nat.digitChar n]
  | fuel + 1, n =>
    if n < base then [Nat.digitChar n]
    else digitsFuel base fuel (n / base) ++ [Nat.digitChar (n % base)]

/-- Decimal representation of a natural number, as interpolated by JS
template strings (`` `${n}` ``). -/
def natToString (n : ℕ) : String := ⟨digitsFuel 10 n n⟩

/-- Value of a digit character (inverse of `Nat.digitChar` on `0..9`). -/
def charVal (c : Char) : ℕ := c.toNat - 48

/-- Folds a digit list back into the number it denotes (base 10). -/
def digitsVal (cs : List Char) : ℕ := cs.foldl (fun a c => 10 * a + charVal c) 0

/-- JS `String.prototype.padStart(2, "0")` on a char list. -/
def padStart2 (cs : List Char) : List Char :=
  if 2 ≤ cs.length then cs else List.replicate (2 - cs.length) '0' ++ cs

/-- `rgbToHex` from src/code.ts: each component × 255, `Math.round`ed,
two-digit lowercase hex (`toString(16).padStart(2,"0")`), concatenated after
`#`, the whole string upper-cased. -/
def rgbToHex (r g b : ℚ) : String :=
  let toHexPair := fun (q : ℚ) => padStart2 (digitsFuel 16 (jsRound (q * 255)).toNat (jsRound (q * 255)).toNat)
  ⟨(('#' :: toHexPair r) ++ toHexPair g ++ toHexPair b).map Char.toUpper⟩

/-- The `source` tag of an extracted color (`"fill" | "stroke" | "text"`). -/
inductive PaintSource where
  | fill
  | stroke
  | text
deriving DecidableEq

/-- `ExtractedColor` from src/code.ts. -/
structure ExtractedColor where
  hex : String
  r : ℚ
  g : ℚ
  b : ℚ
  a : ℚ
  source : PaintSource
  tokenName : String
deriving DecidableEq

/-- The nine color roles of the classifier (`ColorRole` in src/code.ts,
a string union there). -/
inductive ColorRole where
  | red
  | orange
  | yellow
  | green
  | cyan
  | blue
  | purple
  | pink
  | gray
deriving DecidableEq

/-- The string the TS union member denotes (used by template interpolation). -/
def ColorRole.str : ColorRole → String
  | .red => "red"
  | .orange => "orange"
  | .yellow => "yellow"
  | .green => "green"
  | .cyan => "cyan"
  | .blue => "blue"
  | .purple => "purple"
  | .pink => "pink"
  | .gray => "gray"

/-- The naming-pattern selector.  The TS type `NamingPattern` has exactly the
five known members; `other` models any runtime value outside them (the
message payload is untyped at runtime), for which the `switch` in
`assignTokenNames` falls through every branch. -/
inductive NamingPattern where
  | material
  | tailwind
  | antd
  | wcag
  | custom
  | other (tag : String)
deriving DecidableEq

/-- Whether the pattern is one of the five members of the TS union. -/
def NamingPattern.isKnown : NamingPattern → Bool
  | .other _ => false
  | _ => true

/-- `rgbToHsl` from src/code.ts.  Returns `(h, s, l)` with `h` already scaled
to degrees.  The `switch (max)` statement matches `case r` first, then
`case g`, then `case b`, embedded as the if-chain below. -/
def rgbToHsl (r g b : ℚ) : ℚ × ℚ × ℚ :=
  let mx := max r (max g b)
  let mn := min r (min g b)
  let l := (mx + mn) / 2
  if mx = mn then (0 * 360, 0, l)
  else
    let d := mx - mn
    let s := if l > 1/2 then d / (2 - mx - mn) else d / (mx + mn)
    let h :=
      if mx = r then ((g - b) / d + (if g < b then 6 else 0)) / 6
      else if mx = g then ((b - r) / d + 2) / 6
      else ((r - g) / d + 4) / 6
    (h * 360, s, l)

/-- `detectColorRole` from src/code.ts. -/
def detectColorRole (r g b : ℚ) : ColorRole :=
  let hsl := rgbToHsl r g b
  let h := hsl.1
  let s := hsl.2.1
  if s < 0.12 then .gray
  else if 0 ≤ h ∧ h < 20 then .red
  else if 20 ≤ h ∧ h < 45 then .orange
  else if 45 ≤ h ∧ h < 70 then .yellow
  else if 70 ≤ h ∧ h < 165 then .green
  else if 165 ≤ h ∧ h < 200 then .cyan
  else if 200 ≤ h ∧ h < 260 then .blue
  else if 260 ≤ h ∧ h < 300 then .purple
  else if 300 ≤ h ∧ h < 340 then .pink
  else .red

/-- The fixed shade scale of `lightnessToShade`. -/
def shadesList : List ℕ := [50, 100, 200, 300, 400, 500, 600, 700, 800, 900, 950]

/-- `lightnessToShade` from src/code.ts: index `round((1-l)*(length-1))`
clamped into `[0, length-1]`. -/
def lightnessToShade (l : ℚ) : ℕ :=
  let index : ℤ := jsRound ((1 - l) * ((shadesList.length : ℚ) - 1))
  shadesList.getD (max 0 (min ((shadesList.length : ℤ) - 1) index)).toNat 0

/-- `lightnessToAntLevel` from src/code.ts: `clamp(round((1-l)*9)+1, 1, 10)`. -/
def lightnessToAntLevel (l : ℚ) : ℕ :=
  (max 1 (min 10 (jsRound ((1 - l) * 9) + 1))).toNat

/-- The `semanticMap` record of the `material` branch. -/
def materialSemantic : ColorRole → String
  | .red => "error"
  | .orange => "warning"
  | .yellow => "warning"
  | .green => "success"
  | .cyan => "secondary"
  | .blue => "primary"
  | .purple => "tertiary"
  | .pink => "secondary"
  | .gray => "surface"

/-- The `semanticMapAnt` record of the `antd` branch. -/
def antdSemantic : ColorRole → String
  | .red => "error"
  | .orange => "warning"
  | .yellow => "warning"
  | .green => "success"
  | .cyan => "info"
  | .blue => "primary"
  | .purple => "primary"
  | .pink => "error"
  | .gray => "neutral"

/-- The `semanticMapWcag` record of the `wcag` branch (the `gray` entry
depends on the lightness computed for the current color). -/
def wcagSemantic (role : ColorRole) (l : ℚ) : String
  := match role with
  | .red => "error"
  | .orange => "warning"
  | .yellow => "warning"
  | .green => "success"
  | .cyan => "info"
  | .blue => "info"
  | .purple => "info"
  | .pink => "error"
  | .gray => if l > 0.5 then "neutral-light" else "neutral-dark"

/-- The raw candidate token name built by the `switch (pattern)` in
`assignTokenNames` (src/code.ts lines 160-219), before collision handling.
The TS records are total over `ColorRole`, so their `?? "color"` fallbacks
never fire and are embedded as total functions.  `pfx` is the
`customPrefix` argument. -/
def rawTokenName (p : NamingPattern) (pfx : String) (c : ExtractedColor) : String :=
  let hsl := rgbToHsl c.r c.g c.b
  let l := hsl.2.2
  let role := detectColorRole c.r c.g c.b
  let shade := lightnessToShade l
  let antLevel := lightnessToAntLevel l
  match p with
  | .material =>
    let semantic := materialSemantic role
    if shade = 500 then "color-" ++ semantic else "color-" ++ semantic ++ "-" ++ natToString shade
  | .tailwind => role.str ++ "-" ++ natToString shade
  | .antd => antdSemantic role ++ "-" ++ natToString antLevel
  | .wcag => "color-" ++ wcagSemantic role l
  | .custom =>
    let pre := if pfx.trim = "" then "color" else pfx.trim
    pre ++ "-" ++ role.str ++ "-" ++ natToString shade
  | .other _ => ""

/-- Lookup in the collision registry (`roleCount` object in src/code.ts);
`none` models `undefined`. -/
def registryLookup : List (String × ℕ) → String → Option ℕ
  | [], _ => none
  | (k, v) :: rest, key => if k = key then some v else registryLookup rest key

/-- Overwrite the counter stored for `key` (which is present). -/
def registryBump : List (String × ℕ) → String → ℕ → List (String × ℕ)
  | [], key, v => [(key, v)]
  | (k, w) :: rest, key, v =>
    if k = key then (k, v) :: rest else (k, w) :: registryBump rest key v

/-- The `colors.map` body of `assignTokenNames` with the mutable `roleCount`
registry threaded explicitly: a seen name bumps its counter and appends
`-<counter>` (post-increment, so the stored and appended value is the old
counter + 1); an unseen name is registered with counter 0 and kept as-is. -/
def assignGo (p : NamingPattern) (pfx : String) :
    List (String × ℕ) → List ExtractedColor → List ExtractedColor
  | _, [] => []
  | reg, c :: rest =>
    let raw := rawTokenName p pfx c
    match registryLookup reg raw with
    | some k =>
      { c with tokenName := raw ++ "-" ++ natToString (k + 1) } ::
        assignGo p pfx (registryBump reg raw (k + 1)) rest
    | none =>
      { c with tokenName := raw } :: assignGo p pfx ((raw, 0) :: reg) rest

/-- `assignTokenNames` from src/code.ts: the registry is freshly created on
every call. -/
def assignTokenNames (colors : List ExtractedColor) (p : NamingPattern) (pfx : String) :
    List ExtractedColor :=
  assignGo p pfx [] colors

/-- The `seen`-set filter of `deduplicateColors`, with the mutable set
threaded explicitly (as the list of hexes already kept). -/
def dedupGo (seen : List String) : List ExtractedColor → List ExtractedColor
  | [] => []
  | c :: rest =>
    if c.hex ∈ seen then dedupGo seen rest
    else c :: dedupGo (c.hex :: seen) rest

/-- `deduplicateColors` from src/code.ts. -/
def deduplicateColors (colors : List ExtractedColor) : List ExtractedColor :=
  dedupGo [] colors

/-- Spec §4.6, written from the spec's words: walking the sequence in order,
a sample is dropped if and only if an earlier sample in the sequence has the
same hex, and the kept samples stay in their relative order.  `earlier` is
the list of all samples already walked past (kept or dropped) — unlike the
source's `seen` set, which records only kept hexes; the C5 theorem shows the
two agree. -/
def specDedup (earlier : List ExtractedColor) : List ExtractedColor → List ExtractedColor
  | [] => []
  | c :: rest =>
    if c.hex ∈ earlier.map (fun d => d.hex) then specDedup (earlier ++ [c]) rest
    else c :: specDedup (earlier ++ [c]) rest

/-- `Paint` descriptor fields read by `extractPaint`: `type`, `visible`
(`none` models an absent flag), `opacity` (`none` models `undefined`), and
the solid `color` components. -/
structure Paint where
  ty : String
  visible : Option Bool
  opacity : Option ℚ
  r : ℚ
  g : ℚ
  b : ℚ
deriving DecidableEq

/-- `extractPaint` from src/code.ts: a paint yields a color only if its type
is `"SOLID"` and its visibility flag is not explicitly `false`; opacity
defaults to 1. -/
def extractPaint (paint : Paint) (source : PaintSource) : Option ExtractedColor :=
  if paint.ty ≠ "SOLID" ∨ paint.visible = some false then none
  else some
    { hex := rgbToHex paint.r paint.g paint.b
      r := paint.r, g := paint.g, b := paint.b
      a := paint.opacity.getD 1
      source := source, tokenName := "" }

/-- A scene node: `type` string, optional `fills` and `strokes` paint lists
(`none` models a node without the property / a non-array value), and an
optional `children` collection. -/
inductive SceneNode where
  | mk (ty : String) (fills : Option (List Paint)) (strokes : Option (List Paint))
      (children : Option (List SceneNode))

mutual
/-- `extractColorsFromNode` from src/code.ts: fills pass, strokes pass, a
text pass over `fills` for `"TEXT"` nodes, then depth-first recursion into
children, in this order. -/
def extractColorsFromNode : SceneNode → List ExtractedColor
  | .mk ty fills strokes children =>
    (match fills with
     | some ps => ps.filterMap (fun p => extractPaint p .fill)
     | none => []) ++
    (match strokes with
     | some ps => ps.filterMap (fun p => extractPaint p .stroke)
     | none => []) ++
    (if ty = "TEXT" then
      match fills with
      | some ps => ps.filterMap (fun p => extractPaint p .text)
      | none => []
     else []) ++
    (match children with
     | some ns => extractColorsFromForest ns
     | none => [])

/-- Extraction accumulated over a list of sibling nodes (the `for` loop over
`node.children`, and over the selection in the message handler). -/
def extractColorsFromForest : List SceneNode → List ExtractedColor
  | [] => []
  | n :: ns => extractColorsFromNode n ++ extractColorsFromForest ns
end

/-- A JSON value as built by `buildJson` (only strings and string-keyed
objects occur).  Objects are insertion-ordered field lists, mirroring JS
object property order. -/
inductive JVal where
  | str (s : String)
  | obj (fields : List (String × JVal))

/-- Lookup of a key in an insertion-ordered JS-object field list. -/
def assocLookup {α : Type} : List (String × α) → String → Option α
  | [], _ => none
  | (k, v) :: rest, key => if k = key then some v else assocLookup rest key

/-- JS property assignment `o[key] = v`: overwrites in place if the key is
present (keeping its position), otherwise appends the new property. -/
def assocUpsert {α : Type} : List (String × α) → String → α → List (String × α)
  | [], key, v => [(key, v)]
  | (k, w) :: rest, key, v =>
    if k = key then (k, v) :: rest else (k, w) :: assocUpsert rest key v

/-- Field access on a JSON value (`none` on strings / missing keys). -/
def jGet : JVal → String → Option JVal
  | .str _, _ => none
  | .obj fs, key => assocLookup fs key

/-- `buildJson` from src/code.ts, modelled up to the JSON document it
stringifies (`JSON.stringify` is the host's serializer and stays outside the
model): `tailwind` builds the two-level nested colors object, every other
pattern the flat one. -/
def buildJson (colors : List ExtractedColor) (p : NamingPattern) : JVal :=
  if p = .tailwind then
    let nested := colors.foldl
      (fun acc c =>
        let parts := c.tokenName.splitOn "-"
        let colorName := String.intercalate "-" (parts.take (parts.length - 1))
        let shade := parts.getLastD ""
        let inner := (assocLookup acc colorName).getD []
        assocUpsert acc colorName (assocUpsert inner shade c.hex))
      ([] : List (String × List (String × String)))
    .obj [("colors", .obj (nested.map (fun kv => (kv.1, JVal.obj (kv.2.map (fun sv => (sv.1, JVal.str sv.2)))))))]
  else
    let flat := colors.foldl (fun acc c => assocUpsert acc c.tokenName c.hex)
      ([] : List (String × String))
    .obj [("colors", .obj (flat.map (fun kv => (kv.1, JVal.str kv.2))))]

/-- Spec §4.7: the part of a token name before its last hyphen (the color
group key). -/
def tokenGroup (t : String) : String :=
  String.intercalate "-" (t.splitOn "-").dropLast

/-- Spec §4.7: the trailing segment of a token name after its last hyphen
(the shade key). -/
def tokenLastSeg (t : String) : String :=
  (t.splitOn "-").getLastD ""

/-- Spec §4.3, written from the spec's words: the element at index
`round((1−lightness) × 10)`, clamped to `[0,10]`, of the fixed shade list. -/
def shadeSpec (l : ℚ) : ℕ :=
  shadesList.getD (max 0 (min 10 (jsRound ((1 - l) * 10)))).toNat 0

/-- Spec §4.2, written from the spec's words: `gray` below the saturation
threshold, otherwise the hue bucketed into the half-open ranges
`[0,20) [20,45) [45,70) [70,165) [165,200) [200,260) [260,300) [300,340)
[340,360)`.  The final `gray` default marks a hue outside `[0,360)` and is
proved unreachable. -/
def specRoleOfHS (h s : ℚ) : ColorRole :=
  if s < 0.12 then .gray
  else if 0 ≤ h ∧ h < 20 then .red
  else if 20 ≤ h ∧ h < 45 then .orange
  else if 45 ≤ h ∧ h < 70 then .yellow
  else if 70 ≤ h ∧ h < 165 then .green
  else if 165 ≤ h ∧ h < 200 then .cyan
  else if 200 ≤ h ∧ h < 260 then .blue
  else if 260 ≤ h ∧ h < 300 then .purple
  else if 300 ≤ h ∧ h < 340 then .pink
  else if 340 ≤ h ∧ h < 360 then .red
  else .gray

/-- Spec §4.4, written from the spec's words: the name the collision rule
predicts for a color `c` at position `i` of the input — its raw candidate
name as-is if no earlier color shares that candidate, otherwise the
candidate with `-<k>` appended, where `k` is the number of earlier colors
sharing it (the suffixed result is not itself re-checked). -/
def specAssignedName (p : NamingPattern) (pfx : String) (cs : List ExtractedColor)
    (i : ℕ) (c : ExtractedColor) : String :=
  let raw := rawTokenName p pfx c
  let k := ((cs.take i).map (rawTokenName p pfx)).count raw
  if k = 0 then raw else raw ++ "-" ++ natToString k

/-- Erases the token name, for stating which fields naming leaves intact. -/
def clearTok (c : ExtractedColor) : ExtractedColor := { c with tokenName := "" }

/-- A color sample `rgb(rb, gb, gb)` on the 0–255 byte scale, as produced by
extraction (hex derived by `rgbToHex`, token name still empty). -/
def mkMatColor (rb gb : ℕ) : ExtractedColor :=
  { hex := rgbToHex ((rb : ℚ) / 255) ((gb : ℚ) / 255) ((gb : ℚ) / 255)
    r := (rb : ℚ) / 255, g := (gb : ℚ) / 255, b := (gb : ℚ) / 255
    a := 1, source := .fill, tokenName := "" }

/-- 52 colors with pairwise distinct hex values: one light red of shade 50
(raw candidate `color-error-50` under `material`), then 51 reds of lightness
exactly 1/2 (shade 500, raw candidate `color-error`).  The 51st collision
suffix makes the final name `color-error-50` again. -/
def matCounterList : List ExtractedColor :=
  mkMatColor 255 235 :: (List.range 51).map (fun i => mkMatColor (150 + i) (105 - i))

/-- Pure blue, the spec's running example (`#0000FF` → `blue-500`). -/
def sampleBlue : ExtractedColor :=
  { hex := "#0000FF", r := 0, g := 0, b := 1, a := 1, source := .fill, tokenName := "" }

/-- A second, slightly different blue (distinct hex, same role and shade). -/
def sampleBlue2 : ExtractedColor :=
  { hex := "#0005FF", r := 0, g := 1/100, b := 1, a := 1, source := .fill, tokenName := "" }

/-- A solid, visible blue paint. -/
def samplePaint : Paint :=
  { ty := "SOLID", visible := none, opacity := none, r := 0, g := 0, b := 1 }

/-- A text node with one solid fill and no strokes/children properties. -/
def sampleTextNode : SceneNode :=
  .mk "TEXT" (some [samplePaint]) none none

/-! ## Decimal printing: basic facts -/

theorem digitChar_isDigit : ∀ n, n < 10 → (Nat.digitChar n).isDigit = true := by decide

theorem charVal_digitChar : ∀ n, n < 10 → charVal (Nat.digitChar n) = n := by decide

theorem digitsFuel10_isDigit (fuel : ℕ) :
    ∀ n, n ≤ fuel → ∀ c ∈ digitsFuel 10 fuel n, c.isDigit = true := by
  induction fuel with
  | zero =>
    intro n hn c hc
    have hn0 : n = 0 := Nat.le_zero.mp hn
    subst hn0
    simp only [digitsFuel, List.mem_singleton] at hc
    subst hc
    decide
  | succ fuel ih =>
    intro n hn c hc
    by_cases h10 : n < 10
    · simp only [digitsFuel, if_pos h10, List.mem_singleton] at hc
      subst hc
      exact digitChar_isDigit n h10
    · simp only [digitsFuel, if_neg h10, List.mem_append, List.mem_singleton] at hc
      rcases hc with hc | hc
      · have hdiv : n / 10 ≤ fuel := by
          have := Nat.div_lt_self (by omega : 0 < n) (by omega : 1 < 10)
          omega
        exact ih (n / 10) hdiv c hc
      · subst hc
        exact digitChar_isDigit (n % 10) (Nat.mod_lt n (by omega))

theorem digitsVal_append_singleton (A : List Char) (c : Char) :
    digitsVal (A ++ [c]) = 10 * digitsVal A + charVal c := by
  simp [digitsVal, List.foldl_append]

theorem digitsVal_digitsFuel10 (fuel : ℕ) :
    ∀ n, n ≤ fuel → digitsVal (digitsFuel 10 fuel n) = n := by
  induction fuel with
  | zero =>
    intro n hn
    have hn0 : n = 0 := Nat.le_zero.mp hn
    subst hn0
    decide
  | succ fuel ih =>
    intro n hn
    by_cases h10 : n < 10
    · simp only [digitsFuel, if_pos h10]
      have : digitsVal [Nat.digitChar n] = charVal (Nat.digitChar n) := by
        simp [digitsVal]
      rw [this, charVal_digitChar n h10]
    · simp only [digitsFuel, if_neg h10]
      have hdiv : n / 10 ≤ fuel := by
        have := Nat.div_lt_self (by omega : 0 < n) (by omega : 1 < 10)
        omega
      rw [digitsVal_append_singleton, ih (n / 10) hdiv,
        charVal_digitChar (n % 10) (Nat.mod_lt n (by omega))]
      omega

theorem natToString_injective {m n : ℕ} (h : natToString m = natToString n) : m = n := by
  have hd : digitsFuel 10 m m = digitsFuel 10 n n := congrArg String.data h
  have hm := digitsVal_digitsFuel10 m m le_rfl
  have hn := digitsVal_digitsFuel10 n n le_rfl
  rw [← hm, ← hn, hd]

theorem natToString_isDigit (n : ℕ) : ∀ c ∈ (natToString n).data, c.isDigit = true := by
  intro c hc
  exact digitsFuel10_isDigit n n le_rfl c hc

theorem natToString_no_hyphen (n : ℕ) : '-' ∉ (natToString n).data := by
  intro h
  have := natToString_isDigit n '-' h
  simp at this

theorem digitsFuel_ne_nil (base fuel n : ℕ) : digitsFuel base fuel n ≠ [] := by
  cases fuel with
  | zero => simp [digitsFuel]
  | succ fuel =>
    by_cases h : n < base
    · simp [digitsFuel, if_pos h]
    · simp [digitsFuel, if_neg h]

theorem natToString_ne_empty (n : ℕ) : natToString n ≠ "" := by
  intro h
  exact digitsFuel_ne_nil 10 n n (congrArg String.data h)

/-! ## Splitting a string at its last hyphen is unambiguous -/

theorem hyph_split {x y : List Char} (hx : '-' ∉ x) (hy : '-' ∉ y) :
    ∀ {A B : List Char}, A ++ '-' :: x = B ++ '-' :: y → A = B ∧ x = y := by
  intro A
  induction A with
  | nil =>
    intro B h
    cases B with
    | nil => simpa using h
    | cons b bs =>
      exfalso
      simp only [List.nil_append, List.cons_append, List.cons.injEq] at h
      exact hx (h.2 ▸ List.mem_append_right bs (List.mem_cons_self '-' y))
  | cons a as ih =>
    intro B h
    cases B with
    | nil =>
      exfalso
      simp only [List.nil_append, List.cons_append, List.cons.injEq] at h
      exact hy (h.2.symm ▸ List.mem_append_right as (List.mem_cons_self '-' x))
    | cons b bs =>
      simp only [List.cons_append, List.cons.injEq] at h
      obtain ⟨hab, h'⟩ := h
      obtain ⟨h1, h2⟩ := ih h'
      exact ⟨by rw [hab, h1], h2⟩


/-! ## The collision registry and the names `assignTokenNames` produces -/

theorem registryLookup_bump (reg : List (String × ℕ)) (key : String) (v : ℕ) (n : String) :
    registryLookup (registryBump reg key v) n =
      if key = n then some v else registryLookup reg n := by
  induction reg with
  | nil =>
    by_cases h : key = n
    · subst h; simp [registryBump, registryLookup]
    · simp [registryBump, registryLookup, h]
  | cons kv reg ih =>
    obtain ⟨k, w⟩ := kv
    by_cases hk : k = key
    · subst hk
      by_cases h : k = n
      · subst h; simp [registryBump, registryLookup]
      · simp [registryBump, registryLookup, h]
    · by_cases h : k = n
      · subst h
        have hkey : ¬(key = k) := fun he => hk he.symm
        simp [registryBump, registryLookup, hk, hkey]
      · simp [registryBump, registryLookup, hk, h, ih]

theorem assignGo_length (p : NamingPattern) (pfx : String) :
    ∀ (rest : List ExtractedColor) (reg : List (String × ℕ)),
      (assignGo p pfx reg rest).length = rest.length := by
  intro rest
  induction rest with
  | nil => intro reg; rfl
  | cons c rest ih =>
    intro reg
    simp only [assignGo]
    cases registryLookup reg (rawTokenName p pfx c) <;> simp [ih]

theorem assignGo_map_clearTok (p : NamingPattern) (pfx : String) :
    ∀ (rest : List ExtractedColor) (reg : List (String × ℕ)),
      (assignGo p pfx reg rest).map clearTok = rest.map clearTok := by
  intro rest
  induction rest with
  | nil => intro reg; rfl
  | cons c rest ih =>
    intro reg
    simp only [assignGo]
    cases registryLookup reg (rawTokenName p pfx c) <;>
      simp [ih, clearTok]

theorem assignGo_token_shape (p : NamingPattern) (pfx : String) :
    ∀ (rest : List ExtractedColor) (reg : List (String × ℕ)) (c' : ExtractedColor),
      c' ∈ assignGo p pfx reg rest →
      ∃ c₀ ∈ rest, c'.tokenName = rawTokenName p pfx c₀ ∨
        ∃ k, c'.tokenName = rawTokenName p pfx c₀ ++ "-" ++ natToString k := by
  intro rest
  induction rest with
  | nil => intro reg c' h; simp [assignGo] at h
  | cons c rest ih =>
    intro reg c' h
    simp only [assignGo] at h
    cases hlook : registryLookup reg (rawTokenName p pfx c) <;>
      rw [hlook] at h <;> simp only [List.mem_cons] at h
    · rcases h with h | h
      · exact ⟨c, List.mem_cons_self c rest, Or.inl (by rw [h])⟩
      · obtain ⟨c₀, hc₀, htok⟩ := ih _ c' h
        exact ⟨c₀, List.mem_cons_of_mem c hc₀, htok⟩
    · rcases h with h | h
      · exact ⟨c, List.mem_cons_self c rest, Or.inr ⟨_, by rw [h]⟩⟩
      · obtain ⟨c₀, hc₀, htok⟩ := ih _ c' h
        exact ⟨c₀, List.mem_cons_of_mem c hc₀, htok⟩

theorem count_cons_ne {a b : String} (l : List String) (h : ¬(a = b)) :
    (b :: l).count a = l.count a := by
  simp only [List.count_cons, beq_iff_eq, if_neg (fun hba : b = a => h hba.symm), Nat.add_zero]

theorem assignGo_get? (p : NamingPattern) (pfx : String) :
    ∀ (rest : List ExtractedColor) (reg : List (String × ℕ)) (done : List String),
      (∀ N, registryLookup reg N =
        if done.count N = 0 then none else some (done.count N - 1)) →
      ∀ (i : ℕ) (c : ExtractedColor), rest[i]? = some c →
      (assignGo p pfx reg rest)[i]? = (some ({ c with tokenName :=
        (if (done.count (rawTokenName p pfx c) +
            ((rest.take i).map (rawTokenName p pfx)).count (rawTokenName p pfx c) = 0)
        then rawTokenName p pfx c
        else rawTokenName p pfx c ++ "-" ++
          natToString (done.count (rawTokenName p pfx c) +
            ((rest.take i).map (rawTokenName p pfx)).count (rawTokenName p pfx c))) } :
        ExtractedColor) : Option ExtractedColor) := by
  intro rest
  induction rest with
  | nil => intro reg done hreg i c hc; simp at hc
  | cons c₀ rest ih =>
    intro reg done hreg i c hc
    cases i with
    | zero =>
      obtain rfl : c₀ = c := by simpa using hc
      simp only [List.take_zero, List.map_nil, List.count_nil, Nat.add_zero, assignGo]
      cases hlook : registryLookup reg (rawTokenName p pfx c₀)
      · have h0 := hreg (rawTokenName p pfx c₀)
        rw [hlook] at h0
        have hcnt : done.count (rawTokenName p pfx c₀) = 0 := by
          by_contra hne
          rw [if_neg hne] at h0
          exact Option.noConfusion h0
        simp [hcnt]
      · rename_i k
        have h0 := hreg (rawTokenName p pfx c₀)
        rw [hlook] at h0
        have hcnt : ¬(done.count (rawTokenName p pfx c₀) = 0) := by
          intro hz
          rw [if_pos hz] at h0
          exact Option.noConfusion h0
        rw [if_neg hcnt] at h0
        have hk : k = done.count (rawTokenName p pfx c₀) - 1 := by
          injection h0 with h0'
        have hk1 : k + 1 = done.count (rawTokenName p pfx c₀) := by omega
        simp only [List.getElem?_cons_zero, Option.some.injEq, if_neg hcnt, hk1]
    | succ i =>
      simp only [List.getElem?_cons_succ] at hc
      have hcc : ∀ done' : List String,
          done'.count (rawTokenName p pfx c₀) = done.count (rawTokenName p pfx c₀) + 1 →
          (∀ N, ¬(N = rawTokenName p pfx c₀) → done'.count N = done.count N) →
          done'.count (rawTokenName p pfx c) +
            ((rest.take i).map (rawTokenName p pfx)).count (rawTokenName p pfx c) =
          done.count (rawTokenName p pfx c) +
            ((((c₀ :: rest).take (i + 1)).map (rawTokenName p pfx)).count (rawTokenName p pfx c)) := by
        intro done' hself hother
        rw [List.take_succ_cons, List.map_cons, List.count_cons]
        simp only [beq_iff_eq]
        by_cases hN : rawTokenName p pfx c₀ = rawTokenName p pfx c
        · rw [if_pos hN, ← hN, hself]
          omega
        · rw [if_neg hN, hother _ (fun h => hN h.symm)]
          omega
      cases hlook : registryLookup reg (rawTokenName p pfx c₀)
      · have h0 := hreg (rawTokenName p pfx c₀)
        rw [hlook] at h0
        have hcnt : done.count (rawTokenName p pfx c₀) = 0 := by
          by_contra hne
          rw [if_neg hne] at h0
          exact Option.noConfusion h0
        have hreg' : ∀ N, registryLookup ((rawTokenName p pfx c₀, 0) :: reg) N =
            if (rawTokenName p pfx c₀ :: done).count N = 0 then none
            else some ((rawTokenName p pfx c₀ :: done).count N - 1) := by
          intro N
          by_cases hN : rawTokenName p pfx c₀ = N
          · subst hN
            simp [registryLookup, List.count_cons_self, hcnt]
          · simp only [registryLookup, if_neg hN, hreg N,
              count_cons_ne done (fun h => hN h.symm)]
        have hih := ih ((rawTokenName p pfx c₀, 0) :: reg) (rawTokenName p pfx c₀ :: done) hreg' i c hc
        simp only [assignGo, hlook, List.getElem?_cons_succ]
        rw [hih, hcc (rawTokenName p pfx c₀ :: done) (List.count_cons_self _ _)
          (fun N hN => count_cons_ne done hN)]
      · rename_i k
        have h0 := hreg (rawTokenName p pfx c₀)
        rw [hlook] at h0
        have hcnt : ¬(done.count (rawTokenName p pfx c₀) = 0) := by
          intro hz
          rw [if_pos hz] at h0
          exact Option.noConfusion h0
        rw [if_neg hcnt] at h0
        have hk : k = done.count (rawTokenName p pfx c₀) - 1 := by
          injection h0 with h0'
        have hreg' : ∀ N, registryLookup (registryBump reg (rawTokenName p pfx c₀) (k + 1)) N =
            if (rawTokenName p pfx c₀ :: done).count N = 0 then none
            else some ((rawTokenName p pfx c₀ :: done).count N - 1) := by
          intro N
          rw [registryLookup_bump]
          by_cases hN : rawTokenName p pfx c₀ = N
          · subst hN
            rw [List.count_cons_self, if_pos rfl, if_neg (by omega)]
            congr 1
            omega
          · rw [if_neg hN, hreg N, count_cons_ne done (fun h => hN h.symm)]
        have hih := ih (registryBump reg (rawTokenName p pfx c₀) (k + 1))
          (rawTokenName p pfx c₀ :: done) hreg' i c hc
        simp only [assignGo, hlook, List.getElem?_cons_succ]
        rw [hih, hcc (rawTokenName p pfx c₀ :: done) (List.count_cons_self _ _)
          (fun N hN => count_cons_ne done hN)]

theorem assignTokenNames_get? (p : NamingPattern) (pfx : String)
    (cs : List ExtractedColor) (i : ℕ) (c : ExtractedColor) (hc : cs[i]? = some c) :
    (assignTokenNames cs p pfx)[i]? =
      some { c with tokenName := specAssignedName p pfx cs i c } := by
  have hreg : ∀ N, registryLookup ([] : List (String × ℕ)) N =
      if ([] : List String).count N = 0 then none
      else some (([] : List String).count N - 1) := by
    intro N
    simp [registryLookup]
  have h := assignGo_get? p pfx cs [] [] hreg i c hc
  simp only [List.count_nil, Nat.zero_add] at h
  rw [assignTokenNames, h]
  rfl

/-- Claim C2: during one naming invocation, processing colors in input order,
the first color whose raw candidate name is `N` keeps `N`, and for `k ≥ 1`
the `(k+1)`-th color whose raw candidate is `N` receives `N-k` (the suffixed
result is not itself checked against the registry); the registry starts
empty on every call, so the names are a deterministic function of the input
sequence, the pattern and the prefix. -/
theorem claim2_collision_suffixes (p : NamingPattern) (pfx : String)
    (cs : List ExtractedColor) (i : ℕ) (c : ExtractedColor) (hc : cs[i]? = some c) :
    (assignTokenNames cs p pfx)[i]? =
      some { c with tokenName := specAssignedName p pfx cs i c } :=
  assignTokenNames_get? p pfx cs i c hc

/-- Witness for C2: the second of two distinct blues colliding on candidate
`blue-500` is named `blue-500-1`. -/
theorem claim2_witness :
    (assignTokenNames [sampleBlue, sampleBlue2] .tailwind "x")[1]? =
      some { sampleBlue2 with tokenName := "blue-500-1" } := by
  have h := claim2_collision_suffixes .tailwind "x" [sampleBlue, sampleBlue2] 1 sampleBlue2 rfl
  rw [h]
  decide!

/-- Claim C9: naming returns a sequence of the same length and order whose
samples keep their hex, r, g, b, a and source fields — only `tokenName` is
repopulated (erasing the token names of output and input gives equal lists)
— and it is a plain function of its three arguments, so no state survives
across calls. -/
theorem claim9_frame_preservation (cs : List ExtractedColor) (p : NamingPattern) (pfx : String) :
    (assignTokenNames cs p pfx).map clearTok = cs.map clearTok ∧
    (assignTokenNames cs p pfx).length = cs.length :=
  ⟨assignGo_map_clearTok p pfx cs [], assignGo_length p pfx cs []⟩

/-- Claim C8: for a pattern value outside the five known patterns the
`switch` falls through every branch, so the raw candidate name of every
color is the empty string, and the first color of a batch is assigned the
empty token name (later ones only get collision suffixes appended to it). -/
theorem claim8_unknown_pattern_empty (tag pfx : String) (c : ExtractedColor)
    (cs : List ExtractedColor) :
    rawTokenName (.other tag) pfx c = "" ∧
    (assignTokenNames cs (.other tag) pfx)[0]? =
      (cs[0]?).map (fun c₀ => { c₀ with tokenName := "" }) := by
  refine ⟨rfl, ?_⟩
  cases cs with
  | nil => rfl
  | cons c₀ rest =>
    have h := assignTokenNames_get? (.other tag) pfx (c₀ :: rest) 0 c₀ (by simp)
    rw [h]
    simp [specAssignedName, rawTokenName]

/-! ## Raw candidate names never look like suffixed names (except `material`) -/

theorem data_append_hyphen (a s : String) : (a ++ "-" ++ s).data = a.data ++ '-' :: s.data := by
  simp [String.data_append]

theorem role_no_hyphen (role : ColorRole) : '-' ∉ (ColorRole.str role).data := by
  cases role <;> decide

theorem antd_no_hyphen (role : ColorRole) : '-' ∉ (antdSemantic role).data := by
  cases role <;> decide

theorem wcag_last_not_digit (role : ColorRole) (l : ℚ) :
    ∃ ch, (wcagSemantic role l).data.getLast? = some ch ∧ ch.isDigit = false := by
  cases role with
  | gray =>
    by_cases hl : l > 0.5
    · exact ⟨'t', by simp [wcagSemantic, hl], by decide⟩
    · exact ⟨'k', by simp [wcagSemantic, hl], by decide⟩
  | red => exact ⟨'r', rfl, by decide⟩
  | orange => exact ⟨'g', rfl, by decide⟩
  | yellow => exact ⟨'g', rfl, by decide⟩
  | green => exact ⟨'s', rfl, by decide⟩
  | cyan => exact ⟨'o', rfl, by decide⟩
  | blue => exact ⟨'o', rfl, by decide⟩
  | purple => exact ⟨'o', rfl, by decide⟩
  | pink => exact ⟨'r', rfl, by decide⟩

theorem natToString_last_digit (n : ℕ) :
    ∃ d, (natToString n).data.getLast? = some d ∧ d.isDigit = true := by
  have hne : (natToString n).data ≠ [] := digitsFuel_ne_nil 10 n n
  obtain ⟨d, hd⟩ := Option.isSome_iff_exists.mp (List.getLast?_isSome.mpr hne)
  exact ⟨d, hd, natToString_isDigit n d (List.mem_of_mem_getLast? hd)⟩

theorem suffixed_inj {A B : String} {k₁ k₂ : ℕ}
    (h : A ++ "-" ++ natToString k₁ = B ++ "-" ++ natToString k₂) : A = B ∧ k₁ = k₂ := by
  have hd := congrArg String.data h
  rw [data_append_hyphen, data_append_hyphen] at hd
  obtain ⟨hAB, hK⟩ := hyph_split (natToString_no_hyphen k₁) (natToString_no_hyphen k₂) hd
  refine ⟨String.ext hAB, natToString_injective (String.ext hK)⟩

theorem getLast?_hyphen_suffix (x K : String) (hK : K.data ≠ []) :
    ((x ++ "-" ++ K).data).getLast? = K.data.getLast? := by
  rw [data_append_hyphen]
  have : x.data ++ '-' :: K.data = (x.data ++ ['-']) ++ K.data := by
    simp
  rw [this, List.getLast?_append_of_ne_nil _ hK]

theorem raw_not_suffix (p : NamingPattern) (hp : p.isKnown = true) (hm : ¬(p = .material))
    (pfx : String) (c c' : ExtractedColor) (k : ℕ) :
    ¬(rawTokenName p pfx c = rawTokenName p pfx c' ++ "-" ++ natToString k) := by
  intro h
  have hd := congrArg String.data h
  cases p with
  | material => exact hm rfl
  | other tag => simp [NamingPattern.isKnown] at hp
  | tailwind =>
    rw [data_append_hyphen] at hd
    simp only [rawTokenName] at hd
    rw [data_append_hyphen, data_append_hyphen] at hd
    obtain ⟨hrole, _⟩ := hyph_split (natToString_no_hyphen _) (natToString_no_hyphen _) hd
    exact role_no_hyphen (detectColorRole c.r c.g c.b)
      (hrole ▸ List.mem_append_right _ (List.mem_cons_self '-' _))
  | antd =>
    rw [data_append_hyphen] at hd
    simp only [rawTokenName] at hd
    rw [data_append_hyphen, data_append_hyphen] at hd
    obtain ⟨hrole, _⟩ := hyph_split (natToString_no_hyphen _) (natToString_no_hyphen _) hd
    exact antd_no_hyphen (detectColorRole c.r c.g c.b)
      (hrole ▸ List.mem_append_right _ (List.mem_cons_self '-' _))
  | wcag =>
    obtain ⟨ch, hch, hchd⟩ := wcag_last_not_digit (detectColorRole c.r c.g c.b)
      (rgbToHsl c.r c.g c.b).2.2
    obtain ⟨d, hdlast, hdd⟩ := natToString_last_digit k
    have hKne : (natToString k).data ≠ [] := digitsFuel_ne_nil 10 k k
    have hsem : (wcagSemantic (detectColorRole c.r c.g c.b) (rgbToHsl c.r c.g c.b).2.2).data ≠ [] := by
      intro hnil
      rw [hnil] at hch
      exact Option.noConfusion hch
    have hL : ((rawTokenName .wcag pfx c).data).getLast? = some ch := by
      simp only [rawTokenName]
      rw [String.data_append, List.getLast?_append_of_ne_nil _ hsem]
      exact hch
    have hR : ((rawTokenName .wcag pfx c' ++ "-" ++ natToString k).data).getLast? = some d := by
      rw [getLast?_hyphen_suffix _ _ hKne]
      exact hdlast
    rw [h, hR] at hL
    injection hL with hL'
    rw [hL'] at hdd
    rw [hdd] at hchd
    exact Bool.noConfusion hchd
  | custom =>
    rw [data_append_hyphen] at hd
    simp only [rawTokenName] at hd
    rw [data_append_hyphen, data_append_hyphen, data_append_hyphen, data_append_hyphen] at hd
    obtain ⟨hpre, _⟩ := hyph_split (natToString_no_hyphen _) (natToString_no_hyphen _) hd
    have hpre' : '-' :: (detectColorRole c.r c.g c.b).str.data =
        '-' :: ((detectColorRole c'.r c'.g c'.b).str.data ++
          '-' :: (natToString (lightnessToShade (rgbToHsl c'.r c'.g c'.b).2.2)).data) := by
      apply @List.append_cancel_left _ ((if pfx.trim = "" then "color" else pfx.trim).data) _ _
      rw [hpre]
      simp
    have hrole : (detectColorRole c.r c.g c.b).str.data =
        (detectColorRole c'.r c'.g c'.b).str.data ++
          '-' :: (natToString (lightnessToShade (rgbToHsl c'.r c'.g c'.b).2.2)).data := by
      injection hpre'
    exact role_no_hyphen (detectColorRole c.r c.g c.b)
      (hrole ▸ List.mem_append_right _ (List.mem_cons_self '-' _))

theorem assign_names_nodup (p : NamingPattern) (pfx : String)
    (hgood : ∀ (c c' : ExtractedColor) (k : ℕ),
      ¬(rawTokenName p pfx c = rawTokenName p pfx c' ++ "-" ++ natToString k))
    (cs : List ExtractedColor) :
    ((assignTokenNames cs p pfx).map (·.tokenName)).Nodup := by
  apply List.nodup_iff_getElem?_ne_getElem?.mpr
  intro i j hij hj heq
  have hlen : (assignTokenNames cs p pfx).length = cs.length := assignGo_length p pfx cs []
  rw [List.length_map, hlen] at hj
  have hi : i < cs.length := lt_trans hij hj
  have h1 := assignTokenNames_get? p pfx cs i (cs[i]) (List.getElem?_eq_getElem hi)
  have h2 := assignTokenNames_get? p pfx cs j (cs[j]) (List.getElem?_eq_getElem hj)
  rw [List.getElem?_map, h1, List.getElem?_map, h2] at heq
  simp only [Option.map_some', Option.some.injEq, specAssignedName] at heq
  set rawi := rawTokenName p pfx (cs[i]) with hrawi
  set rawj := rawTokenName p pfx (cs[j]) with hrawj
  set ki := ((cs.take i).map (rawTokenName p pfx)).count rawi with hki
  set kj := ((cs.take j).map (rawTokenName p pfx)).count rawj with hkj
  have hmem : ∀ (hraweq : rawi = rawj), rawi ∈ (cs.take j).map (rawTokenName p pfx) := by
    intro hraweq
    have hmem' : cs[i] ∈ cs.take j := by
      have h1' : i < (cs.take j).length := by
        simp only [List.length_take]
        omega
      have : (cs.take j)[i] = cs[i] := List.getElem_take cs
      exact this ▸ List.getElem_mem h1'
    exact hrawi ▸ List.mem_map_of_mem (rawTokenName p pfx) hmem'
  have hmono : ∀ (hraweq : rawi = rawj), ki + 1 ≤ kj := by
    intro hraweq
    have hstep : ((cs.take (i + 1)).map (rawTokenName p pfx)).count rawi = ki + 1 := by
      rw [List.take_succ, List.getElem?_eq_getElem hi]
      simp only [Option.toList_some, List.map_append, List.count_append, List.map_cons,
        List.map_nil]
      rw [hki]
      congr 1
      rw [hrawi]
      simp [List.count_cons]
    have hpre : ((cs.take (i + 1)).map (rawTokenName p pfx)).count rawi ≤
        ((cs.take j).map (rawTokenName p pfx)).count rawi := by
      rw [List.map_take, List.map_take]
      have hsub : List.Sublist ((cs.map (rawTokenName p pfx)).take (i + 1))
          ((cs.map (rawTokenName p pfx)).take j) := by
        have : (cs.map (rawTokenName p pfx)).take (i + 1) =
            ((cs.map (rawTokenName p pfx)).take j).take (i + 1) := by
          rw [List.take_take]
          congr 1
          omega
        rw [this]
        exact List.take_sublist _ _
      exact hsub.count_le rawi
    rw [hstep] at hpre
    rw [hkj, ← hraweq]
    exact hpre
  by_cases hzi : ki = 0 <;> by_cases hzj : kj = 0
  · rw [if_pos hzi, if_pos hzj] at heq
    have hmem' : rawj ∈ (cs.take j).map (rawTokenName p pfx) := heq ▸ hmem heq
    have h0 : 0 < kj := by
      rw [hkj]
      exact List.count_pos_iff.mpr hmem'
    omega
  · rw [if_pos hzi, if_neg hzj] at heq
    exact hgood (cs[i]) (cs[j]) kj heq
  · rw [if_neg hzi, if_pos hzj] at heq
    exact hgood (cs[j]) (cs[i]) ki heq.symm
  · rw [if_neg hzi, if_neg hzj] at heq
    obtain ⟨hreq, hkeq⟩ := suffixed_inj heq
    have := hmono hreq
    omega

/-! ## Assigned names are never empty for the five known patterns -/

theorem append_ne_empty_of_left (a b : String) (ha : ¬(a = "")) : ¬(a ++ b = "") := by
  intro h
  have hd := congrArg String.data h
  rw [String.data_append] at hd
  obtain ⟨h1, _⟩ := List.append_eq_nil.mp hd
  exact ha (String.ext h1)

theorem role_str_ne_empty (role : ColorRole) : ¬(role.str = "") := by
  cases role <;> decide

theorem antd_ne_empty (role : ColorRole) : ¬(antdSemantic role = "") := by
  cases role <;> decide

theorem raw_ne_empty (p : NamingPattern) (hp : p.isKnown = true) (pfx : String)
    (c : ExtractedColor) : ¬(rawTokenName p pfx c = "") := by
  cases p with
  | other tag => simp [NamingPattern.isKnown] at hp
  | material =>
    simp only [rawTokenName]
    split
    · exact append_ne_empty_of_left _ _ (by decide)
    · exact append_ne_empty_of_left _ _ (append_ne_empty_of_left _ _
        (append_ne_empty_of_left _ _ (by decide)))
  | tailwind =>
    exact append_ne_empty_of_left _ _ (append_ne_empty_of_left _ _ (role_str_ne_empty _))
  | antd =>
    exact append_ne_empty_of_left _ _ (append_ne_empty_of_left _ _ (antd_ne_empty _))
  | wcag =>
    exact append_ne_empty_of_left _ _ (by decide)
  | custom =>
    apply append_ne_empty_of_left
    apply append_ne_empty_of_left
    apply append_ne_empty_of_left
    apply append_ne_empty_of_left
    split
    · decide
    · rename_i hne
      exact hne

theorem assign_names_ne_empty (p : NamingPattern) (hp : p.isKnown = true) (pfx : String)
    (cs : List ExtractedColor) :
    ∀ c' ∈ assignTokenNames cs p pfx, ¬(c'.tokenName = "") := by
  intro c' hc'
  obtain ⟨c₀, _, h | ⟨k, h⟩⟩ := assignGo_token_shape p pfx cs [] c' hc'
  · rw [h]
    exact raw_ne_empty p hp pfx c₀
  · rw [h]
    exact append_ne_empty_of_left _ _ (append_ne_empty_of_left _ _ (raw_ne_empty p hp pfx c₀))

/-- Claim C1, amended: for every input sequence (the distinct-hex hypothesis
of the original claim is kept but not needed), every known pattern and every
prefix, each output sample has a non-empty token name; and for every known
pattern except `material` the token names are pairwise distinct.  Under
`material` distinctness can fail (see the counterexample): a raw candidate
`color-<semantic>-<shade>` can coincide with the `<shade>`-th collision
suffix of `color-<semantic>`. -/
theorem claim1_amended_names_unique (cs : List ExtractedColor) (p : NamingPattern)
    (pfx : String) (_hhex : (cs.map (·.hex)).Nodup) (hp : p.isKnown = true) :
    (∀ c' ∈ assignTokenNames cs p pfx, ¬(c'.tokenName = "")) ∧
    (¬(p = .material) → ((assignTokenNames cs p pfx).map (·.tokenName)).Nodup) :=
  ⟨assign_names_ne_empty p hp pfx cs,
   fun hm => assign_names_nodup p pfx (fun c c' k => raw_not_suffix p hp hm pfx c c' k) cs⟩

/-- Witness for the amended C1: two distinct blues under `tailwind` get
non-empty, distinct token names. -/
theorem claim1_witness :
    (∀ c' ∈ assignTokenNames [sampleBlue, sampleBlue2] .tailwind "x", ¬(c'.tokenName = "")) ∧
    ((assignTokenNames [sampleBlue, sampleBlue2] .tailwind "x").map (·.tokenName)).Nodup := by
  obtain ⟨h1, h2⟩ := claim1_amended_names_unique [sampleBlue, sampleBlue2] .tailwind "x"
    (by decide) (by decide)
  exact ⟨h1, h2 (by decide)⟩

/-- Counterexample to claim C1 as stated: 52 color samples with pairwise
distinct hex values for which the `material` pattern assigns the token name
`color-error-50` twice — the first sample gets it as its raw candidate, and
the 52nd as the 50th collision suffix of `color-error`. -/
theorem claim1_counterexample :
    (matCounterList.map (·.hex)).Nodup ∧
    ((assignTokenNames matCounterList .material "color").map (·.tokenName))[0]? =
      some "color-error-50" ∧
    ((assignTokenNames matCounterList .material "color").map (·.tokenName))[51]? =
      some "color-error-50" ∧
    ¬ ((assignTokenNames matCounterList .material "color").map (·.tokenName)).Nodup := by
  decide!

/-! ## Deduplication keeps exactly the first occurrence of each hex -/

theorem dedupGo_sublist (seen : List String) (cs : List ExtractedColor) :
    List.Sublist (dedupGo seen cs) cs := by
  induction cs generalizing seen with
  | nil => simp [dedupGo]
  | cons c cs ih =>
    simp only [dedupGo]
    split
    · exact (ih seen).cons c
    · exact (ih (c.hex :: seen)).cons₂ c

theorem dedupGo_hex_not_seen (seen : List String) (cs : List ExtractedColor) :
    ∀ c ∈ dedupGo seen cs, c.hex ∉ seen := by
  induction cs generalizing seen with
  | nil => intro c hc; simp [dedupGo] at hc
  | cons c₀ cs ih =>
    intro c hc
    simp only [dedupGo] at hc
    split at hc
    · exact ih seen c hc
    · rcases List.mem_cons.mp hc with rfl | hc'
      · assumption
      · intro hmem
        exact ih (c₀.hex :: seen) c hc' (List.mem_cons_of_mem _ hmem)

theorem dedupGo_hex_nodup (seen : List String) (cs : List ExtractedColor) :
    ((dedupGo seen cs).map (·.hex)).Nodup := by
  induction cs generalizing seen with
  | nil => simp [dedupGo]
  | cons c cs ih =>
    simp only [dedupGo]
    split
    · exact ih seen
    · simp only [List.map_cons, List.nodup_cons]
      refine ⟨?_, ih (c.hex :: seen)⟩
      intro hmem
      obtain ⟨d, hd, hdx⟩ := List.mem_map.mp hmem
      exact dedupGo_hex_not_seen (c.hex :: seen) cs d hd (hdx ▸ List.mem_cons_self _ _)

theorem dedupGo_represents (seen : List String) (cs : List ExtractedColor) :
    ∀ c ∈ cs, c.hex ∈ seen ∨ ∃ d ∈ dedupGo seen cs, d.hex = c.hex := by
  induction cs generalizing seen with
  | nil => intro c hc; simp at hc
  | cons c₀ cs ih =>
    intro c hc
    rcases List.mem_cons.mp hc with rfl | hc'
    · simp only [dedupGo]
      split
      · left; assumption
      · right
        exact ⟨c, List.mem_cons_self _ _, rfl⟩
    · simp only [dedupGo]
      split
      · exact ih seen c hc'
      · rcases ih (c₀.hex :: seen) c hc' with hseen | ⟨d, hd, hdx⟩
        · rcases List.mem_cons.mp hseen with hx | hx
          · right
            exact ⟨c₀, List.mem_cons_self _ _, hx.symm⟩
          · left; exact hx
        · right
          exact ⟨d, List.mem_cons_of_mem _ hd, hdx⟩

theorem dedupGo_find? (seen : List String) (cs : List ExtractedColor) :
    ∀ c ∈ dedupGo seen cs, cs.find? (fun d => d.hex == c.hex) = some c := by
  induction cs generalizing seen with
  | nil => intro c hc; simp [dedupGo] at hc
  | cons c₀ cs ih =>
    intro c hc
    simp only [dedupGo] at hc
    split at hc
    · rename_i hseen
      have hne : ¬((fun d : ExtractedColor => d.hex == c.hex) c₀) = true := by
        simp only [beq_iff_eq]
        intro hx
        exact dedupGo_hex_not_seen seen cs c hc (hx ▸ hseen)
      exact (List.find?_cons_of_neg cs hne).trans (ih seen c hc)
    · rename_i hseen
      rcases List.mem_cons.mp hc with rfl | hc'
      · exact List.find?_cons_of_pos cs (by simp)
      · have hne : ¬((fun d : ExtractedColor => d.hex == c.hex) c₀) = true := by
          simp only [beq_iff_eq]
          intro hx
          exact dedupGo_hex_not_seen (c₀.hex :: seen) cs c hc'
            (hx ▸ List.mem_cons_self _ _)
        exact (List.find?_cons_of_neg cs hne).trans (ih (c₀.hex :: seen) c hc')

theorem dedupGo_of_disjoint (seen : List String) (cs : List ExtractedColor)
    (hdis : ∀ c ∈ cs, c.hex ∉ seen) (hnd : (cs.map (·.hex)).Nodup) :
    dedupGo seen cs = cs := by
  induction cs generalizing seen with
  | nil => rfl
  | cons c cs ih =>
    simp only [dedupGo]
    rw [if_neg (hdis c (List.mem_cons_self _ _))]
    congr 1
    apply ih
    · intro d hd
      simp only [List.mem_cons]
      rintro (hx | hx)
      · simp only [List.map_cons, List.nodup_cons] at hnd
        exact hnd.1 (hx ▸ List.mem_map_of_mem (·.hex) hd)
      · exact hdis d (List.mem_cons_of_mem _ hd) hx
    · simp only [List.map_cons, List.nodup_cons] at hnd
      exact hnd.2

theorem dedupGo_spec (rest : List ExtractedColor) :
    ∀ (seen : List String) (earlier : List ExtractedColor),
      (∀ h, h ∈ seen ↔ h ∈ earlier.map (fun d => d.hex)) →
      dedupGo seen rest = specDedup earlier rest := by
  induction rest with
  | nil => intro seen earlier hiff; rfl
  | cons c rest ih =>
    intro seen earlier hiff
    have hmap : (earlier ++ [c]).map (fun d => d.hex) =
        earlier.map (fun d => d.hex) ++ [c.hex] := by
      simp
    simp only [dedupGo, specDedup]
    by_cases hc : c.hex ∈ seen
    · rw [if_pos hc, if_pos ((hiff c.hex).mp hc)]
      apply ih
      intro h
      rw [hmap, List.mem_append, List.mem_singleton]
      constructor
      · intro hs
        exact Or.inl ((hiff h).mp hs)
      · rintro (h1 | rfl)
        · exact (hiff h).mpr h1
        · exact hc
    · rw [if_neg hc, if_neg (fun hmem => hc ((hiff c.hex).mpr hmem))]
      congr 1
      apply ih
      intro h
      rw [List.mem_cons, hmap, List.mem_append, List.mem_singleton]
      constructor
      · rintro (rfl | hs)
        · exact Or.inr rfl
        · exact Or.inl ((hiff h).mp hs)
      · rintro (h1 | rfl)
        · exact Or.inr ((hiff h).mpr h1)
        · exact Or.inl rfl

/-- Claim C5: `deduplicateColors` returns exactly the spec's first-occurrence
subsequence: it equals the positional walk that drops a sample if and only if
an earlier sample in the sequence has the same hex and keeps the rest in
their relative order (`specDedup`, whose `earlier` accumulator holds all
samples already walked past, not just the kept hexes); moreover every kept
sample is the first input sample carrying its hex. -/
theorem claim5_dedup_first_occurrence (cs : List ExtractedColor) :
    deduplicateColors cs = specDedup [] cs ∧
    (∀ c ∈ deduplicateColors cs, cs.find? (fun d => d.hex == c.hex) = some c) := by
  refine ⟨?_, dedupGo_find? [] cs⟩
  apply dedupGo_spec
  intro h
  simp

/-- Witness for C5 on a concrete three-sample list with a duplicated hex. -/
theorem claim5_witness :
    deduplicateColors [sampleBlue, sampleBlue2, sampleBlue] =
      specDedup [] [sampleBlue, sampleBlue2, sampleBlue] ∧
    [sampleBlue, sampleBlue2, sampleBlue].find?
      (fun d => d.hex == sampleBlue.hex) = some sampleBlue := by
  obtain ⟨heq, hfind⟩ := claim5_dedup_first_occurrence [sampleBlue, sampleBlue2, sampleBlue]
  exact ⟨heq, hfind sampleBlue (by decide!)⟩

/-- Claim C6: deduplication is idempotent, and on a sequence whose hex
values are already pairwise distinct it is the identity. -/
theorem claim6_dedup_idempotent (cs : List ExtractedColor) :
    deduplicateColors (deduplicateColors cs) = deduplicateColors cs ∧
    ((cs.map (·.hex)).Nodup → deduplicateColors cs = cs) := by
  constructor
  · exact dedupGo_of_disjoint [] (deduplicateColors cs)
      (fun c _ => by simp) (dedupGo_hex_nodup [] cs)
  · intro hnd
    exact dedupGo_of_disjoint [] cs (fun c _ => by simp) hnd

/-- Witness for C6 on a concrete already-deduplicated list. -/
theorem claim6_witness :
    deduplicateColors (deduplicateColors [sampleBlue, sampleBlue2]) =
      deduplicateColors [sampleBlue, sampleBlue2] ∧
    deduplicateColors [sampleBlue, sampleBlue2] = [sampleBlue, sampleBlue2] := by
  obtain ⟨h1, h2⟩ := claim6_dedup_idempotent [sampleBlue, sampleBlue2]
  exact ⟨h1, h2 (by decide)⟩

/-! ## The 50-950 shade quantizer -/

theorem claim4_helper_mem (l : ℚ) : lightnessToShade l ∈ shadesList := by
  rw [lightnessToShade]
  set idx : ℤ := jsRound ((1 - l) * ((shadesList.length : ℚ) - 1)) with hidx
  have hm : (0 : ℤ) ≤ max 0 (min ((shadesList.length : ℤ) - 1) idx) := le_max_left 0 _
  have hM : max 0 (min ((shadesList.length : ℤ) - 1) idx) ≤ (shadesList.length : ℤ) - 1 := by
    apply max_le
    · simp [shadesList]
    · exact min_le_left _ _
  have hlen : shadesList.length = 11 := by rfl
  have hlt : (max 0 (min ((shadesList.length : ℤ) - 1) idx)).toNat < shadesList.length := by
    rw [hlen] at hM ⊢
    omega
  rw [List.getD_eq_getElem _ _ hlt]
  exact List.getElem_mem hlt

/-- Claim C4: for every lightness in [0,1] the quantizer returns the element
at index round((1−l)×10), clamped to [0,10], of the fixed 11-element shade
list (the spec-side formula `shadeSpec`); the result is always a member of
that list, lightness 1 maps to 50 and lightness 0 maps to 950. -/
theorem claim4_shade_quantizer (l : ℚ) (_h0 : 0 ≤ l) (_h1 : l ≤ 1) :
    lightnessToShade l = shadeSpec l ∧
    lightnessToShade l ∈ shadesList ∧
    lightnessToShade 1 = 50 ∧ lightnessToShade 0 = 950 := by
  refine ⟨?_, claim4_helper_mem l, by decide!, by decide!⟩
  have hq : ((shadesList.length : ℚ) - 1) = 10 := by norm_num [shadesList]
  have hz : ((shadesList.length : ℤ) - 1) = 10 := by norm_num [shadesList]
  rw [lightnessToShade, shadeSpec, hq, hz]

/-- Witness for C4 at lightness 1/2 (shade 500). -/
theorem claim4_witness :
    lightnessToShade (1/2) = shadeSpec (1/2) ∧
    lightnessToShade (1/2) ∈ shadesList ∧
    lightnessToShade 1 = 50 ∧ lightnessToShade 0 = 950 :=
  claim4_shade_quantizer (1/2) (by norm_num) (by norm_num)

/-! ## The role classifier: hue bounds and bucket equivalence -/

theorem hsl_h_bounds (r g b : ℚ) :
    0 ≤ (rgbToHsl r g b).1 ∧ (rgbToHsl r g b).1 < 360 := by
  have hgmx : g ≤ max r (max g b) := le_trans (le_max_left _ _) (le_max_right _ _)
  have hbmx : b ≤ max r (max g b) := le_trans (le_max_right _ _) (le_max_right _ _)
  have hrmx : r ≤ max r (max g b) := le_max_left _ _
  have hmnr : min r (min g b) ≤ r := min_le_left _ _
  have hmng : min r (min g b) ≤ g := le_trans (min_le_right _ _) (min_le_left _ _)
  have hmnb : min r (min g b) ≤ b := le_trans (min_le_right _ _) (min_le_right _ _)
  rw [rgbToHsl]
  split_ifs with hEq hs hr hgb hg hr2 hgb2 hg2 <;> simp only
  · norm_num
  all_goals (
    have hd : 0 < max r (max g b) - min r (min g b) :=
      sub_pos.mpr (lt_of_le_of_ne (le_trans hmnr hrmx) (fun h => hEq h.symm))
    first
      | (have hb1 : (g - b) / (max r (max g b) - min r (min g b)) < 0 :=
          div_neg_of_neg_of_pos (by linarith) hd
         have hb2 : -1 ≤ (g - b) / (max r (max g b) - min r (min g b)) := by
           rw [le_div_iff₀ hd]
           linarith
         have he : ((g - b) / (max r (max g b) - min r (min g b)) + 6) / 6 * 360 =
             60 * ((g - b) / (max r (max g b) - min r (min g b))) + 360 := by ring
         rw [he]
         constructor <;> linarith)
      | (have hb1 : 0 ≤ (g - b) / (max r (max g b) - min r (min g b)) :=
           div_nonneg (by linarith) (le_of_lt hd)
         have hb2 : (g - b) / (max r (max g b) - min r (min g b)) ≤ 1 :=
           (div_le_one hd).mpr (by linarith)
         have he : ((g - b) / (max r (max g b) - min r (min g b)) + 0) / 6 * 360 =
             60 * ((g - b) / (max r (max g b) - min r (min g b))) := by ring
         rw [he]
         constructor <;> linarith)
      | (have hb1 : -1 ≤ (b - r) / (max r (max g b) - min r (min g b)) := by
           rw [le_div_iff₀ hd]
           linarith
         have hb2 : (b - r) / (max r (max g b) - min r (min g b)) ≤ 1 :=
           (div_le_one hd).mpr (by linarith)
         have he : ((b - r) / (max r (max g b) - min r (min g b)) + 2) / 6 * 360 =
             60 * ((b - r) / (max r (max g b) - min r (min g b))) + 120 := by ring
         rw [he]
         constructor <;> linarith)
      | (have hb1 : -1 ≤ (r - g) / (max r (max g b) - min r (min g b)) := by
           rw [le_div_iff₀ hd]
           linarith
         have hb2 : (r - g) / (max r (max g b) - min r (min g b)) ≤ 1 :=
           (div_le_one hd).mpr (by linarith)
         have he : ((r - g) / (max r (max g b) - min r (min g b)) + 4) / 6 * 360 =
             60 * ((r - g) / (max r (max g b) - min r (min g b))) + 240 := by ring
         rw [he]
         constructor <;> linarith))

set_option maxHeartbeats 2000000 in
/-- Claim C3: for components in [0,1] the classifier returns `gray` exactly
when the saturation is below 0.12, and otherwise buckets the hue by the
spec's half-open ranges; the hue always lies in [0,360), so the nine buckets
are exhaustive (the out-of-range `gray` default of `specRoleOfHS` is never
reached) and the classifier is total over the nine roles. -/
theorem claim3_role_classifier (r g b : ℚ)
    (_hr0 : 0 ≤ r) (_hr1 : r ≤ 1) (_hg0 : 0 ≤ g) (_hg1 : g ≤ 1)
    (_hb0 : 0 ≤ b) (_hb1 : b ≤ 1) :
    0 ≤ (rgbToHsl r g b).1 ∧ (rgbToHsl r g b).1 < 360 ∧
    detectColorRole r g b = specRoleOfHS (rgbToHsl r g b).1 (rgbToHsl r g b).2.1 ∧
    (detectColorRole r g b = .gray ↔ (rgbToHsl r g b).2.1 < 0.12) := by
  obtain ⟨hh0, hh1⟩ := hsl_h_bounds r g b
  refine ⟨hh0, hh1, ?_, ?_⟩
  · rw [detectColorRole, specRoleOfHS]
    split_ifs with h1 h2 h3 h4 h5 h6 h7 h8 h9 h10 <;> try rfl
    exfalso
    have k2 : 20 ≤ (rgbToHsl r g b).1 := le_of_not_lt (fun hlt => h2 ⟨hh0, hlt⟩)
    have k3 : 45 ≤ (rgbToHsl r g b).1 := le_of_not_lt (fun hlt => h3 ⟨by linarith, hlt⟩)
    have k4 : 70 ≤ (rgbToHsl r g b).1 := le_of_not_lt (fun hlt => h4 ⟨by linarith, hlt⟩)
    have k5 : 165 ≤ (rgbToHsl r g b).1 := le_of_not_lt (fun hlt => h5 ⟨by linarith, hlt⟩)
    have k6 : 200 ≤ (rgbToHsl r g b).1 := le_of_not_lt (fun hlt => h6 ⟨by linarith, hlt⟩)
    have k7 : 260 ≤ (rgbToHsl r g b).1 := le_of_not_lt (fun hlt => h7 ⟨by linarith, hlt⟩)
    have k8 : 300 ≤ (rgbToHsl r g b).1 := le_of_not_lt (fun hlt => h8 ⟨by linarith, hlt⟩)
    have k9 : 340 ≤ (rgbToHsl r g b).1 := le_of_not_lt (fun hlt => h9 ⟨by linarith, hlt⟩)
    have k10 : 360 ≤ (rgbToHsl r g b).1 := le_of_not_lt (fun hlt => h10 ⟨by linarith, hlt⟩)
    linarith
  · rw [detectColorRole]
    constructor
    · intro hdet
      by_contra hns
      rw [if_neg hns] at hdet
      split_ifs at hdet
    · intro hs
      rw [if_pos hs]

/-- Witness for C3 at pure blue (hue 240, saturation 1). -/
theorem claim3_witness :
    0 ≤ (rgbToHsl 0 0 1).1 ∧ (rgbToHsl 0 0 1).1 < 360 ∧
    detectColorRole 0 0 1 = specRoleOfHS (rgbToHsl 0 0 1).1 (rgbToHsl 0 0 1).2.1 ∧
    (detectColorRole 0 0 1 = .gray ↔ (rgbToHsl 0 0 1).2.1 < 0.12) :=
  claim3_role_classifier 0 0 1 (by norm_num) (by norm_num) (by norm_num) (by norm_num)
    (by norm_num) (by norm_num)

/-! ## The export formatter -/

theorem assocLookup_upsert {α : Type} (m : List (String × α)) (key : String) (v : α)
    (n : String) :
    assocLookup (assocUpsert m key v) n = if key = n then some v else assocLookup m n := by
  induction m with
  | nil =>
    by_cases h : key = n
    · subst h; simp [assocUpsert, assocLookup]
    · simp [assocUpsert, assocLookup, h]
  | cons kv m ih =>
    obtain ⟨k, w⟩ := kv
    by_cases hk : k = key
    · subst hk
      by_cases h : k = n
      · subst h; simp [assocUpsert, assocLookup]
      · simp [assocUpsert, assocLookup, h]
    · by_cases h : k = n
      · subst h
        have hkey : ¬(key = k) := fun he => hk he.symm
        simp [assocUpsert, assocLookup, hk, hkey]
      · simp [assocUpsert, assocLookup, hk, h, ih]

theorem assocLookup_map {β γ : Type} (f : β → γ) (m : List (String × β)) (key : String) :
    assocLookup (m.map (fun kv => (kv.1, f kv.2))) key = (assocLookup m key).map f := by
  induction m with
  | nil => rfl
  | cons kv m ih =>
    obtain ⟨k, w⟩ := kv
    by_cases h : k = key
    · simp [assocLookup, h]
    · simp [assocLookup, h, ih]

theorem find?_singleton_hex (c : ExtractedColor) (pr : ExtractedColor → Bool) :
    ([c].find? pr).map (fun d => d.hex) = if pr c then some c.hex else none := by
  by_cases h : pr c
  · rw [List.find?_cons_of_pos _ h]
    rw [if_pos h]
    rfl
  · rw [List.find?_cons_of_neg _ (by simpa using h)]
    rw [if_neg h]
    rfl

theorem flat_fold_lookup (cs : List ExtractedColor) :
    ∀ (acc : List (String × String)) (nm : String),
      assocLookup (cs.foldl (fun acc c => assocUpsert acc c.tokenName c.hex) acc) nm =
        ((cs.reverse.find? (fun c => c.tokenName == nm)).map (fun c => c.hex)).or
          (assocLookup acc nm) := by
  induction cs with
  | nil => intro acc nm; simp
  | cons c cs ih =>
    intro acc nm
    simp only [List.foldl_cons, List.reverse_cons]
    rw [ih, List.find?_append]
    cases hfind : cs.reverse.find? (fun c => c.tokenName == nm) with
    | some x => rfl
    | none =>
      rw [assocLookup_upsert]
      by_cases hc : c.tokenName = nm
      · have hone : List.find? (fun d => d.tokenName == nm) [c] = some c := by
          simp [List.find?, hc]
        rw [if_pos hc, hone]
        rfl
      · have hbeq : (c.tokenName == nm) = false := by
          simp [hc]
        have hone : List.find? (fun d => d.tokenName == nm) [c] = none := by
          simp [List.find?, hbeq]
        rw [if_neg hc, hone]
        rfl

theorem tokenGroup_take (t : String) :
    String.intercalate "-" ((t.splitOn "-").take ((t.splitOn "-").length - 1)) = tokenGroup t := by
  rw [tokenGroup, List.dropLast_eq_take]

theorem tokenLastSeg_def (t : String) : (t.splitOn "-").getLastD "" = tokenLastSeg t := rfl

theorem nested_step_lookup (acc : List (String × List (String × String))) (c : ExtractedColor)
    (g s : String) :
    (assocLookup (assocUpsert acc (tokenGroup c.tokenName)
        (assocUpsert ((assocLookup acc (tokenGroup c.tokenName)).getD [])
          (tokenLastSeg c.tokenName) c.hex)) g).bind (fun inner => assocLookup inner s) =
    if (tokenGroup c.tokenName = g ∧ tokenLastSeg c.tokenName = s) then some c.hex
    else (assocLookup acc g).bind (fun inner => assocLookup inner s) := by
  rw [assocLookup_upsert]
  by_cases hg : tokenGroup c.tokenName = g
  · rw [if_pos hg]
    simp only [Option.some_bind]
    rw [assocLookup_upsert]
    by_cases hs : tokenLastSeg c.tokenName = s
    · rw [if_pos hs, if_pos ⟨hg, hs⟩]
    · rw [if_neg hs, if_neg (fun h => hs h.2)]
      rw [← hg]
      cases hlook : assocLookup acc (tokenGroup c.tokenName) with
      | none => simp [assocLookup]
      | some inner => simp
  · rw [if_neg hg, if_neg (fun h => hg h.1)]

theorem nested_fold_lookup (cs : List ExtractedColor) :
    ∀ (acc : List (String × List (String × String))) (g s : String),
      (assocLookup (cs.foldl (fun acc c =>
          let parts := c.tokenName.splitOn "-"
          let colorName := String.intercalate "-" (parts.take (parts.length - 1))
          let shade := parts.getLastD ""
          let inner := (assocLookup acc colorName).getD []
          assocUpsert acc colorName (assocUpsert inner shade c.hex)) acc) g).bind
        (fun inner => assocLookup inner s) =
      ((cs.reverse.find? (fun c =>
          tokenGroup c.tokenName == g && tokenLastSeg c.tokenName == s)).map
        (fun c => c.hex)).or
        ((assocLookup acc g).bind (fun inner => assocLookup inner s)) := by
  induction cs with
  | nil => intro acc g s; simp
  | cons c cs ih =>
    intro acc g s
    simp only [List.foldl_cons, List.reverse_cons]
    rw [ih, List.find?_append]
    simp only [tokenGroup_take, tokenLastSeg_def]
    rw [nested_step_lookup]
    cases hfind : cs.reverse.find? (fun c =>
        tokenGroup c.tokenName == g && tokenLastSeg c.tokenName == s) with
    | some x => rfl
    | none =>
      by_cases hgs : tokenGroup c.tokenName = g ∧ tokenLastSeg c.tokenName = s
      · have hbeq : (tokenGroup c.tokenName == g && tokenLastSeg c.tokenName == s) = true := by
          simp [hgs.1, hgs.2]
        have hone : List.find? (fun d =>
            tokenGroup d.tokenName == g && tokenLastSeg d.tokenName == s) [c] = some c := by
          simp [List.find?, hbeq]
        rw [if_pos hgs, hone]
        rfl
      · have hbeq : (tokenGroup c.tokenName == g && tokenLastSeg c.tokenName == s) = false := by
          rcases not_and_or.mp hgs with h | h <;> simp [h]
        have hone : List.find? (fun d =>
            tokenGroup d.tokenName == g && tokenLastSeg d.tokenName == s) [c] = none := by
          simp [List.find?, hbeq]
        rw [if_neg hgs, hone]
        rfl

theorem assocLookup_singleton {α : Type} (k : String) (v : α) :
    assocLookup [(k, v)] k = some v := by
  simp [assocLookup]

/-- Claim C7: `buildJson` always produces a document of shape
`{"colors": {...}}`; under `tailwind` the colors object is the two-level
nested mapping keyed by the part of each token name before its last hyphen
and then by the trailing segment (later colors overwriting earlier ones on
the same pair of keys, hence the last-match lookup); under every other
pattern it is the flat single-level mapping from token name to hex. -/
theorem claim7_build_json (cs : List ExtractedColor) (p : NamingPattern) :
    (∃ m, buildJson cs p = .obj [("colors", .obj m)]) ∧
    (∀ g s, (jGet (buildJson cs .tailwind) "colors").bind
        (fun mg => (jGet mg g).bind (fun ms => jGet ms s)) =
      ((cs.reverse.find? (fun c =>
          tokenGroup c.tokenName == g && tokenLastSeg c.tokenName == s)).map
        (fun c => JVal.str c.hex))) ∧
    (¬(p = .tailwind) → ∀ nm,
      (jGet (buildJson cs p) "colors").bind (fun mf => jGet mf nm) =
        ((cs.reverse.find? (fun c => c.tokenName == nm)).map
          (fun c => JVal.str c.hex))) := by
  refine ⟨?_, ?_, ?_⟩
  · rw [buildJson]
    split_ifs <;> exact ⟨_, rfl⟩
  · intro g s
    rw [buildJson, if_pos rfl]
    simp only [jGet]
    rw [assocLookup_singleton]
    simp only [Option.some_bind, jGet]
    rw [assocLookup_map
      (fun v : List (String × String) => JVal.obj (v.map (fun sv => (sv.1, JVal.str sv.2))))]
    have H := nested_fold_lookup cs [] g s
    simp only [assocLookup, Option.none_bind, Option.or_none] at H
    cases hN : assocLookup (cs.foldl (fun acc c =>
        let parts := c.tokenName.splitOn "-"
        let colorName := String.intercalate "-" (parts.take (parts.length - 1))
        let shade := parts.getLastD ""
        let inner := (assocLookup acc colorName).getD []
        assocUpsert acc colorName (assocUpsert inner shade c.hex)) []) g with
    | none =>
      rw [hN] at H
      simp only [Option.none_bind] at H
      cases hF : cs.reverse.find? (fun c =>
          tokenGroup c.tokenName == g && tokenLastSeg c.tokenName == s) with
      | none => rfl
      | some x =>
        rw [hF] at H
        exact Option.noConfusion H
    | some inner =>
      rw [hN] at H
      simp only [Option.some_bind] at H
      simp only [Option.map_some', Option.some_bind, jGet]
      rw [assocLookup_map JVal.str, H]
      cases cs.reverse.find? (fun c =>
          tokenGroup c.tokenName == g && tokenLastSeg c.tokenName == s) <;> rfl
  · intro hp nm
    rw [buildJson, if_neg hp]
    simp only [jGet]
    rw [assocLookup_singleton]
    simp only [Option.some_bind, jGet]
    rw [assocLookup_map JVal.str]
    have H := flat_fold_lookup cs [] nm
    simp only [assocLookup, Option.or_none] at H
    rw [H]
    cases cs.reverse.find? (fun c => c.tokenName == nm) <;> rfl

/-- Witness for C7 on a single already-named blue sample. -/
theorem claim7_witness :
    (∃ m, buildJson [{ sampleBlue with tokenName := "blue-500" }] .material =
      .obj [("colors", .obj m)]) ∧
    ((jGet (buildJson [{ sampleBlue with tokenName := "blue-500" }] .tailwind) "colors").bind
        (fun mg => (jGet mg "blue").bind (fun ms => jGet ms "500")) =
      some (.str "#0000FF")) ∧
    ((jGet (buildJson [{ sampleBlue with tokenName := "blue-500" }] .material) "colors").bind
        (fun mf => jGet mf "blue-500") = some (.str "#0000FF")) := by
  obtain ⟨h1, h2, h3⟩ := claim7_build_json [{ sampleBlue with tokenName := "blue-500" }] .material
  refine ⟨h1, ?_, ?_⟩
  · rw [h2 "blue" "500"]
    have hF : [{ sampleBlue with tokenName := "blue-500" }].reverse.find? (fun c =>
        tokenGroup c.tokenName == "blue" && tokenLastSeg c.tokenName == "500") =
        some { sampleBlue with tokenName := "blue-500" } := by
      decide!
    rw [hF]
    rfl
  · rw [h3 (by decide) "blue-500"]
    have hF : [{ sampleBlue with tokenName := "blue-500" }].reverse.find? (fun c =>
        c.tokenName == "blue-500") = some { sampleBlue with tokenName := "blue-500" } := by
      decide!
    rw [hF]
    rfl

/-! ## Text nodes emit their fills twice; dedup never keeps a text sample -/

theorem extractPaint_source (p : Paint) (src : PaintSource) (c : ExtractedColor)
    (h : extractPaint p src = some c) : c.source = src := by
  rw [extractPaint] at h
  split_ifs at h
  injection h with h'
  rw [← h']

theorem extractPaint_text_eq (p : Paint) :
    extractPaint p .text = (extractPaint p .fill).map
      (fun c => { c with source := PaintSource.text }) := by
  rw [extractPaint, extractPaint]
  split_ifs <;> rfl

theorem filterMap_extractPaint_source (ps : List Paint) (src : PaintSource) :
    ∀ c ∈ ps.filterMap (fun p => extractPaint p src), c.source = src := by
  intro c hc
  obtain ⟨p, _, hp⟩ := List.mem_filterMap.mp hc
  exact extractPaint_source p src c hp

theorem text_pass_eq_fill_pass (ps : List Paint) :
    ps.filterMap (fun p => extractPaint p .text) =
      (ps.filterMap (fun p => extractPaint p .fill)).map
        (fun c => { c with source := PaintSource.text }) := by
  induction ps with
  | nil => rfl
  | cons p ps ih =>
    simp only [List.filterMap_cons]
    rw [extractPaint_text_eq p]
    cases extractPaint p PaintSource.fill with
    | none => exact ih
    | some c => simp [ih]

theorem find?_append_or {a b : List ExtractedColor} {pr : ExtractedColor → Bool}
    {c : ExtractedColor} (h : (a ++ b).find? pr = some c) :
    a.find? pr = some c ∨ (a.find? pr = none ∧ b.find? pr = some c) := by
  rw [List.find?_append] at h
  cases ha : a.find? pr with
  | some x =>
    rw [ha] at h
    exact Or.inl h
  | none =>
    rw [ha] at h
    exact Or.inr ⟨rfl, h⟩

theorem retag_find?_none {A : List ExtractedColor} {hx : String}
    (h : A.find? (fun d => d.hex == hx) = none) :
    (A.map (fun c => { c with source := PaintSource.text })).find?
      (fun d => d.hex == hx) = none := by
  rw [List.find?_eq_none] at h ⊢
  intro x hxm
  obtain ⟨y, hy, rfl⟩ := List.mem_map.mp hxm
  simpa using h y hy

theorem source_of_find?_all {l : List ExtractedColor} {hx : String} {c : ExtractedColor}
    (src : PaintSource) (hall : ∀ d ∈ l, d.source = src)
    (h : l.find? (fun d => d.hex == hx) = some c) : c.source = src :=
  hall c (List.mem_of_find?_eq_some h)

theorem forest_first_of_nodes (ns : List SceneNode)
    (hnode : ∀ n ∈ ns, ∀ (hx : String) (c : ExtractedColor),
      (extractColorsFromNode n).find? (fun d => d.hex == hx) = some c →
      ¬(c.source = .text)) :
    ∀ (hx : String) (c : ExtractedColor),
      (extractColorsFromForest ns).find? (fun d => d.hex == hx) = some c →
      ¬(c.source = .text) := by
  induction ns with
  | nil => intro hx c h; simp [extractColorsFromForest, List.find?] at h
  | cons n ns ih =>
    intro hx c h
    rw [extractColorsFromForest] at h
    rcases find?_append_or h with h1 | ⟨_, h2⟩
    · exact hnode n (List.mem_cons_self _ _) hx c h1
    · exact ih (fun m hm => hnode m (List.mem_cons_of_mem _ hm)) hx c h2

theorem text_match_eq (fills : Option (List Paint)) :
    (match fills with
     | some ps => ps.filterMap (fun p => extractPaint p PaintSource.text)
     | none => []) =
    (match fills with
     | some ps => ps.filterMap (fun p => extractPaint p PaintSource.fill)
     | none => []).map (fun c : ExtractedColor => { c with source := PaintSource.text }) := by
  cases fills with
  | none => rfl
  | some ps => exact text_pass_eq_fill_pass ps

theorem extractNode_unfold (ty : String) (fills strokes : Option (List Paint))
    (children : Option (List SceneNode)) :
    extractColorsFromNode (.mk ty fills strokes children) =
      (match fills with
       | some ps => ps.filterMap (fun p => extractPaint p PaintSource.fill)
       | none => []) ++
      ((match strokes with
       | some ps => ps.filterMap (fun p => extractPaint p PaintSource.stroke)
       | none => []) ++
      ((if ty = "TEXT" then
          (match fills with
           | some ps => ps.filterMap (fun p => extractPaint p PaintSource.text)
           | none => [])
        else []) ++
      (match children with
       | some ns => extractColorsFromForest ns
       | none => []))) := by
  rw [extractColorsFromNode.eq_def]
  simp [List.append_assoc]

theorem fills_pass_source (fills : Option (List Paint)) :
    ∀ d : ExtractedColor, d ∈ ((match fills with
      | some ps => ps.filterMap (fun p => extractPaint p PaintSource.fill)
      | none => []) : List ExtractedColor) → d.source = PaintSource.fill := by
  cases fills with
  | none => intro d hd; simp at hd
  | some ps => exact filterMap_extractPaint_source ps .fill

theorem strokes_pass_source (strokes : Option (List Paint)) :
    ∀ d : ExtractedColor, d ∈ ((match strokes with
      | some ps => ps.filterMap (fun p => extractPaint p PaintSource.stroke)
      | none => []) : List ExtractedColor) → d.source = PaintSource.stroke := by
  cases strokes with
  | none => intro d hd; simp at hd
  | some ps => exact filterMap_extractPaint_source ps .stroke

theorem text_pass_find_none (ty : String) (A T : List ExtractedColor) (hx : String)
    (hT : T = A.map (fun c : ExtractedColor => { c with source := PaintSource.text }))
    (hfind : A.find? (fun d : ExtractedColor => d.hex == hx) = none) :
    (if ty = "TEXT" then T else []).find? (fun d : ExtractedColor => d.hex == hx) = none := by
  by_cases hty : ty = "TEXT"
  · rw [if_pos hty, hT]
    exact retag_find?_none hfind
  · rw [if_neg hty]
    rfl

theorem children_pass_some (ns : List SceneNode) :
    (match (some ns : Option (List SceneNode)) with
     | some ns => extractColorsFromForest ns
     | none => []) = extractColorsFromForest ns := rfl

theorem children_pass_none :
    (match (none : Option (List SceneNode)) with
     | some ns => extractColorsFromForest ns
     | none => []) = [] := rfl

theorem node_first_not_text_aux (k : ℕ) :
    ∀ (n : SceneNode), sizeOf n ≤ k → ∀ (hx : String) (c : ExtractedColor),
      (extractColorsFromNode n).find? (fun d => d.hex == hx) = some c →
      ¬(c.source = .text) := by
  induction k with
  | zero =>
    intro n hn
    exfalso
    obtain ⟨ty, fills, strokes, children⟩ := n
    simp at hn
  | succ k ih =>
    intro n hn hx c h
    obtain ⟨ty, fills, strokes, children⟩ := n
    rw [extractNode_unfold] at h
    rcases find?_append_or h with h1 | ⟨hn1, h'⟩
    · intro hsrc
      rw [source_of_find?_all .fill (fills_pass_source fills) h1] at hsrc
      exact PaintSource.noConfusion hsrc
    rcases find?_append_or h' with h2 | ⟨_, h''⟩
    · intro hsrc
      rw [source_of_find?_all .stroke (strokes_pass_source strokes) h2] at hsrc
      exact PaintSource.noConfusion hsrc
    rcases find?_append_or h'' with h3 | ⟨_, h4⟩
    · exfalso
      rw [text_pass_find_none ty _ _ hx (text_match_eq fills) hn1] at h3
      exact Option.noConfusion h3
    · cases children with
      | none =>
        rw [children_pass_none] at h4
        exfalso
        simp [List.find?] at h4
      | some ns =>
        rw [children_pass_some] at h4
        refine forest_first_of_nodes ns ?_ hx c h4
        intro m hm
        apply ih
        have h1 : sizeOf m < sizeOf ns := List.sizeOf_lt_of_mem hm
        have h2 : sizeOf (SceneNode.mk ty fills strokes (some ns)) ≤ k + 1 := hn
        simp at h2
        omega

/-- Claim C10: a text node emits each surviving solid fill paint twice —
once with source `fill` in the fills pass and once with source `text` in
the text pass, the fill-sourced copy earlier in the output (the strokes
pass sits between them) — and consequently, for any node tree, no sample
surviving deduplication ever carries the `text` source. -/
theorem claim10_text_double_emission (F : List Paint) (strokes : Option (List Paint))
    (children : Option (List SceneNode)) :
    extractColorsFromNode (.mk "TEXT" (some F) strokes children) =
      F.filterMap (fun p => extractPaint p .fill) ++
      ((match strokes with
        | some ps => ps.filterMap (fun p => extractPaint p PaintSource.stroke)
        | none => []) ++
      ((F.filterMap (fun p => extractPaint p .fill)).map
        (fun c : ExtractedColor => { c with source := PaintSource.text }) ++
      (match children with
        | some ns => extractColorsFromForest ns
        | none => []))) ∧
    (∀ (n : SceneNode) (c : ExtractedColor),
      c ∈ deduplicateColors (extractColorsFromNode n) → ¬(c.source = .text)) := by
  constructor
  · rw [extractNode_unfold, if_pos rfl]
    have e1 : (match (some F : Option (List Paint)) with
       | some ps => ps.filterMap (fun p => extractPaint p PaintSource.fill)
       | none => []) = F.filterMap (fun p => extractPaint p PaintSource.fill) := rfl
    have e2 : (match (some F : Option (List Paint)) with
       | some ps => ps.filterMap (fun p => extractPaint p PaintSource.text)
       | none => []) = F.filterMap (fun p => extractPaint p PaintSource.text) := rfl
    rw [e1, e2, text_pass_eq_fill_pass]
  · intro n c hc
    have hfind := dedupGo_find? [] (extractColorsFromNode n) c hc
    exact node_first_not_text_aux (sizeOf n) n le_rfl c.hex c hfind

/-- Witness for C10 at a concrete text node with one blue fill. -/
theorem claim10_witness :
    extractColorsFromNode sampleTextNode =
      [samplePaint].filterMap (fun p => extractPaint p .fill) ++
      (([] : List ExtractedColor) ++
      (([samplePaint].filterMap (fun p => extractPaint p .fill)).map
        (fun c : ExtractedColor => { c with source := PaintSource.text }) ++ [])) ∧
    ∀ c ∈ deduplicateColors (extractColorsFromNode sampleTextNode),
      ¬(c.source = .text) := by
  obtain ⟨h1, h2⟩ := claim10_text_double_emission [samplePaint] none none
  exact ⟨h1, fun c hc => h2 sampleTextNode c hc⟩
